import Mathlib

/-
Verification of the BAM-chunking subsystem of pbcoretools
(`pbcoretools/cloud_utils.py`: `get_zmw_bgzf_borders`, `get_bam_offsets`,
`split_bam`).  The module itself is not part of the source tree here, only
its unit test (`tests/unit/test_cloud_utils.py`); the definitions below are
therefore modelled from the specification, with the unit test's concrete
assertion vectors fixing the observable behavior of the fixtures.
-/

namespace CloudUtils

/-- Modelled from the spec: one record of the positional (.pbi) index read by
the missing module `pbcoretools/cloud_utils.py`.  Each record carries the
read-group identifier (ZMW hole number) and a BGZF virtual file offset, a
compound of the compressed block start and the byte offset inside the
decompressed block. -/
structure IndexRecord where
  groupId : Nat
  voffset : Nat
deriving DecidableEq, Repr

/-- Modelled from the spec: the compressed-byte-offset component of a BGZF
virtual offset (the high bits, the virtual offset divided by 2^16). -/
def coffset (r : IndexRecord) : Nat := r.voffset / 65536

/-- Modelled from the spec: the uncompressed component of a BGZF virtual
offset (the low 16 bits). -/
def uoffset (r : IndexRecord) : Nat := r.voffset % 65536

/-- Modelled from the spec: a Border marks the first record of a group at
which the file may legally be split.  Field order follows the triples the
unit test asserts: (record index, group id, compressed byte offset). -/
structure Border where
  recordIndex : Nat
  groupId : Nat
  fileOffset : Nat
deriving DecidableEq, Repr

/-- Modelled from the spec: the error taxonomy of the chunking core. -/
inductive SplitError where
  | malformedIndex
  | invalidChunkCount
deriving DecidableEq, Repr

/-- Modelled from the spec: the index-validity check — records must be
ordered by strictly increasing virtual file offset. -/
def sortedVoffsets : List IndexRecord → Bool
  | [] => true
  | [_] => true
  | a :: b :: rs => decide (a.voffset < b.voffset) && sortedVoffsets (b :: rs)

/-- Modelled from the spec: the border scan.  Walks the index keeping the
previous record's group; the first record opens the first group and always
anchors the first border; a later record opens a border exactly when its
group differs from the previous record's group and its uncompressed offset
component is zero (an offset with a nonzero uncompressed component lies
inside a block already represented and is not a new border candidate). -/
def bordersAux : Nat → Option Nat → List IndexRecord → List Border
  | _, _, [] => []
  | i, none, r :: rs =>
      ⟨i, r.groupId, coffset r⟩ :: bordersAux (i + 1) (some r.groupId) rs
  | i, some g, r :: rs =>
      if r.groupId ≠ g ∧ uoffset r = 0 then
        ⟨i, r.groupId, coffset r⟩ :: bordersAux (i + 1) (some r.groupId) rs
      else
        bordersAux (i + 1) (some r.groupId) rs

/-- Modelled from the spec: the BGZF border locator of
`pbcoretools/cloud_utils.py` (`get_zmw_bgzf_borders`).  Fails with
`MalformedIndexError` when the index is empty or its virtual offsets are not
monotonically increasing; otherwise returns one border per group change. -/
def get_zmw_bgzf_borders (idx : List IndexRecord) : Except SplitError (List Border) :=
  if idx.isEmpty then .error .malformedIndex
  else if sortedVoffsets idx then .ok (bordersAux 0 none idx)
  else .error .malformedIndex

/-- Modelled from the spec: distance of a border's record index from the
fractional target position k/n of the total record count N, scaled by n to
stay in integers: |n * recordIndex - k * N|. -/
def distTo (n N k : Nat) (b : Border) : Nat :=
  ((n * b.recordIndex : Int) - (k * N : Int)).natAbs

/-- Modelled from the spec: pick the border whose record index is closest to
the fractional target k/n of the record count N; the earliest border wins
ties. -/
def closestBorder (n N k : Nat) (b0 : Border) (bs : List Border) : Border :=
  bs.foldl (fun best b => if distTo n N k b < distTo n N k best then b else best) b0

/-- Modelled from the spec: drop every candidate offset that does not
strictly exceed the previously kept one, so no offset is duplicated and the
plan stays strictly increasing. -/
def dedupIncrGo : Nat → List Nat → List Nat
  | _, [] => []
  | last, x :: xs => if last < x then x :: dedupIncrGo x xs else dedupIncrGo last xs

/-- Modelled from the spec: deduplication entry point; the first candidate
is always kept. -/
def dedupIncr : List Nat → List Nat
  | [] => []
  | x :: xs => x :: dedupIncrGo x xs

/-- Modelled from the spec: the offset partitioner (`choose_offsets`).
Fails with `InvalidChunkCountError` when the requested chunk count is below
one; otherwise, for each fractional target k/n of the total record count N
(k = 0 .. n-1) it picks the border closest to the target and keeps the
distinct picks in ascending order.  When fewer distinct borders exist than
requested chunks the plan silently shrinks. -/
def choose_offsets (bs : List Border) (N n : Nat) : Except SplitError (List Nat) :=
  if n < 1 then .error .invalidChunkCount
  else
    match bs with
    | [] => .ok []
    | b0 :: rest =>
        .ok (dedupIncr ((List.range n).map fun k => (closestBorder n N k b0 rest).fileOffset))

/-- Modelled from the spec: `get_bam_offsets` of
`pbcoretools/cloud_utils.py`.  Loads the index colocated with the BAM
(abstracted here as the index itself), locates the borders, and runs the
partitioner with the total record count. -/
def get_bam_offsets (idx : List IndexRecord) (n : Nat) : Except SplitError (List Nat) :=
  match get_zmw_bgzf_borders idx with
  | .error e => .error e
  | .ok bs => choose_offsets bs idx.length n

/-- Modelled from the spec: the record stream of each chunk.  A chunk plan
offset list [o1, o2, ...] cuts the source into half-open byte ranges; a
record belongs to the chunk whose range contains its compressed block start,
the last chunk being open ended.  This is the record-level abstraction of
`extract_bam_chunk` plus re-reading each chunk file. -/
def chunksOf (idx : List IndexRecord) : List Nat → List (List IndexRecord)
  | [] => []
  | [o] => [idx.filter fun r => decide (o ≤ coffset r)]
  | o1 :: o2 :: rest =>
      (idx.filter fun r => decide (o1 ≤ coffset r ∧ coffset r < o2)) ::
        chunksOf idx (o2 :: rest)

/-- Modelled from the spec: the chunk orchestrator `split_bam`.  Computes
the offset plan, extracts one chunk per plan entry, numbers the output files
contiguously from 0, and returns the actual chunk count together with the
numbered chunk record streams. -/
def split_bam (idx : List IndexRecord) (n : Nat) :
    Except SplitError (Nat × List (Nat × List IndexRecord)) :=
  match get_bam_offsets idx n with
  | .error e => .error e
  | .ok offs => .ok ((chunksOf idx offs).length, (chunksOf idx offs).enum)

/-- Modelled from the spec: the index invariant that groups are contiguous
(no interleaving).  Walks the index carrying the current group and the set
of groups already closed; reopening a closed group is a violation. -/
def groupsContiguousB : Option Nat → List Nat → List IndexRecord → Bool
  | _, _, [] => true
  | none, seen, r :: rs => groupsContiguousB (some r.groupId) seen rs
  | some g, seen, r :: rs =>
      if r.groupId = g then groupsContiguousB (some g) seen rs
      else if r.groupId ∈ seen then false
      else groupsContiguousB (some r.groupId) (g :: seen) rs

/-- Modelled from the spec: index fixture A (the `subreads-xml` test file).
Its border triples and offset plans are fixed by the unit test: borders
(0, 1650, 396), (16, 7247, 26575), (48, 30983, 77209), and offset plans
[396], [396, 77209], [396, 26575, 77209], [396, 26575, 77209] for requested
chunk counts 1..4.  The record count (80) and the interior virtual offsets
are chosen consistently with those vectors. -/
def fixtureA : List IndexRecord :=
  (List.range 80).map fun i =>
    if i < 16 then ⟨1650, 396 * 65536 + i⟩
    else if i < 48 then ⟨7247, 26575 * 65536 + (i - 16)⟩
    else ⟨30983, 77209 * 65536 + (i - 48)⟩

/-- Modelled from the spec: index fixture B (the `subreads-sequel` test
file), a single-border file: one group, sole border (0, 5177614, 447). -/
def fixtureB : List IndexRecord :=
  [⟨5177614, 447 * 65536⟩, ⟨5177614, 447 * 65536 + 1⟩, ⟨5177614, 447 * 65536 + 2⟩]

/-- An index with exactly three usable borders bunched at record positions
0, 1, 2 of a 100-record file; used to probe saturation behavior when the
record-count targets all fall past the last border. -/
def fixtureC : List IndexRecord :=
  [⟨1, 10 * 65536⟩, ⟨2, 11 * 65536⟩, ⟨3, 12 * 65536⟩] ++
    (List.range 97).map fun i => ⟨3, 12 * 65536 + i + 1⟩

/-- A two-record, two-group index whose first record has a nonzero
uncompressed offset component and whose second group starts mid-block. -/
def fixtureD : List IndexRecord := [⟨0, 1⟩, ⟨1, 65539⟩]

instance {ε α : Type} [DecidableEq ε] [DecidableEq α] : DecidableEq (Except ε α) := fun a b =>
  match a, b with
  | .error e, .error f =>
      decidable_of_iff (e = f) ⟨fun h => h ▸ rfl, fun h => Except.error.inj h⟩
  | .error _, .ok _ => isFalse fun h => Except.noConfusion h
  | .ok _, .error _ => isFalse fun h => Except.noConfusion h
  | .ok x, .ok y =>
      decidable_of_iff (x = y) ⟨fun h => h ▸ rfl, fun h => Except.ok.inj h⟩

/-- A sorted index stays sorted after dropping its head, and the head's
virtual offset is below every later record's. -/
theorem sortedVoffsets_cons (a : IndexRecord) (l : List IndexRecord)
    (h : sortedVoffsets (a :: l) = true) :
    sortedVoffsets l = true ∧ ∀ r ∈ l, a.voffset < r.voffset := by
  induction l generalizing a with
  | nil => simp [sortedVoffsets]
  | cons b rs ih =>
      have h' : a.voffset < b.voffset ∧ sortedVoffsets (b :: rs) = true := by
        simpa [sortedVoffsets] using h
      obtain ⟨hab, hb⟩ := h'
      obtain ⟨hrs, hall⟩ := ih b hb
      refine ⟨hb, ?_⟩
      intro r hr
      rcases List.mem_cons.mp hr with h1 | h2
      · exact h1 ▸ hab
      · exact Nat.lt_trans hab (hall r h2)

/-- Every border produced by the scan comes from a record of the index,
carries that record's group and compressed offset, and sits at or after the
start position of the scan. -/
theorem mem_bordersAux (l : List IndexRecord) :
    ∀ i p b, b ∈ bordersAux i p l →
      ∃ r ∈ l, b.groupId = r.groupId ∧ b.fileOffset = coffset r ∧ i ≤ b.recordIndex := by
  induction l with
  | nil => intro i p b hb; cases p <;> simp [bordersAux] at hb
  | cons r rs ih =>
      intro i p b hb
      match p with
      | none =>
          rw [bordersAux] at hb
          rcases List.mem_cons.mp hb with h1 | h2
          · subst h1; exact ⟨r, List.mem_cons_self r rs, rfl, rfl, Nat.le_refl i⟩
          · obtain ⟨s, hs, hg, ho, hle⟩ := ih (i + 1) (some r.groupId) b h2
            exact ⟨s, List.mem_cons_of_mem _ hs, hg, ho, Nat.le_trans (Nat.le_succ i) hle⟩
      | some g =>
          rw [bordersAux] at hb
          by_cases hc : r.groupId ≠ g ∧ uoffset r = 0
          · rw [if_pos hc] at hb
            rcases List.mem_cons.mp hb with h1 | h2
            · subst h1; exact ⟨r, List.mem_cons_self r rs, rfl, rfl, Nat.le_refl i⟩
            · obtain ⟨s, hs, hg, ho, hle⟩ := ih (i + 1) (some r.groupId) b h2
              exact ⟨s, List.mem_cons_of_mem _ hs, hg, ho, Nat.le_trans (Nat.le_succ i) hle⟩
          · rw [if_neg hc] at hb
            obtain ⟨s, hs, hg, ho, hle⟩ := ih (i + 1) (some r.groupId) b hb
            exact ⟨s, List.mem_cons_of_mem _ hs, hg, ho, Nat.le_trans (Nat.le_succ i) hle⟩

/-- Every border produced after the first record comes from a record whose
uncompressed offset component is zero. -/
theorem mem_bordersAux_some (l : List IndexRecord) :
    ∀ i g b, b ∈ bordersAux i (some g) l →
      ∃ r ∈ l, b.groupId = r.groupId ∧ b.fileOffset = coffset r ∧ uoffset r = 0 := by
  induction l with
  | nil => intro i g b hb; simp [bordersAux] at hb
  | cons r rs ih =>
      intro i g b hb
      rw [bordersAux] at hb
      by_cases hc : r.groupId ≠ g ∧ uoffset r = 0
      · rw [if_pos hc] at hb
        rcases List.mem_cons.mp hb with h1 | h2
        · subst h1; exact ⟨r, List.mem_cons_self r rs, rfl, rfl, hc.2⟩
        · obtain ⟨s, hs, h⟩ := ih (i + 1) r.groupId b h2
          exact ⟨s, List.mem_cons_of_mem _ hs, h⟩
      · rw [if_neg hc] at hb
        obtain ⟨s, hs, h⟩ := ih (i + 1) r.groupId b hb
        exact ⟨s, List.mem_cons_of_mem _ hs, h⟩

/-- The scan emits strictly increasing record indices. -/
theorem bordersAux_chain_ri (l : List IndexRecord) :
    ∀ i p, List.Chain' (fun x y => x.recordIndex < y.recordIndex) (bordersAux i p l) := by
  induction l with
  | nil => intro i p; cases p <;> simp [bordersAux]
  | cons r rs ih =>
      intro i p
      have hhead : ∀ y ∈ (bordersAux (i + 1) (some r.groupId) rs).head?,
          i < y.recordIndex := by
        intro y hy
        obtain ⟨s, _, _, _, hle⟩ :=
          mem_bordersAux rs (i + 1) (some r.groupId) y (List.mem_of_mem_head? hy)
        exact Nat.lt_of_succ_le hle
      match p with
      | none =>
          rw [bordersAux]
          exact List.chain'_cons'.mpr ⟨hhead, ih (i + 1) (some r.groupId)⟩
      | some g =>
          rw [bordersAux]
          by_cases hc : r.groupId ≠ g ∧ uoffset r = 0
          · rw [if_pos hc]
            exact List.chain'_cons'.mpr ⟨hhead, ih (i + 1) (some r.groupId)⟩
          · rw [if_neg hc]
            exact ih (i + 1) (some r.groupId)

/-- Borders emitted after a record at virtual offset v0 sit at compressed
offsets strictly beyond v0's block. -/
theorem bordersAux_off_gt (l : List IndexRecord) (i g v0 : Nat)
    (hv : ∀ r ∈ l, v0 < r.voffset) :
    ∀ b ∈ bordersAux i (some g) l, v0 / 65536 < b.fileOffset := by
  intro b hb
  obtain ⟨r, hr, _, ho, hu⟩ := mem_bordersAux_some l i g b hb
  have hu' : r.voffset % 65536 = 0 := hu
  have hmul : coffset r * 65536 = r.voffset :=
    Nat.div_mul_cancel (Nat.dvd_of_mod_eq_zero hu')
  rw [ho]
  exact (Nat.div_lt_iff_lt_mul (by norm_num)).mpr (hmul ▸ hv r hr)

/-- The scan emits strictly increasing compressed offsets on a sorted tail. -/
theorem bordersAux_chain_off (l : List IndexRecord) :
    ∀ i g, sortedVoffsets l = true →
      List.Chain' (fun x y => x.fileOffset < y.fileOffset) (bordersAux i (some g) l) := by
  induction l with
  | nil => intro i g _; simp [bordersAux]
  | cons r rs ih =>
      intro i g hs
      obtain ⟨hrs, hall⟩ := sortedVoffsets_cons r rs hs
      rw [bordersAux]
      by_cases hc : r.groupId ≠ g ∧ uoffset r = 0
      · rw [if_pos hc]
        refine List.chain'_cons'.mpr ⟨?_, ih (i + 1) r.groupId hrs⟩
        intro y hy
        exact bordersAux_off_gt rs (i + 1) r.groupId r.voffset hall y
          (List.mem_of_mem_head? hy)
      · rw [if_neg hc]
        exact ih (i + 1) r.groupId hrs

/-- On a non-empty sorted index the locator succeeds and its first border is
taken at record 0. -/
theorem borders_ok (r0 : IndexRecord) (rs : List IndexRecord)
    (hs : sortedVoffsets (r0 :: rs) = true) :
    get_zmw_bgzf_borders (r0 :: rs) =
      .ok (⟨0, r0.groupId, coffset r0⟩ :: bordersAux 1 (some r0.groupId) rs) := by
  simp [get_zmw_bgzf_borders, hs, bordersAux]

/-- Successful locator output has strictly increasing compressed offsets. -/
theorem borders_chain_off (idx : List IndexRecord) (bs : List Border)
    (hs : sortedVoffsets idx = true) (hb : get_zmw_bgzf_borders idx = .ok bs) :
    List.Chain' (fun x y => x.fileOffset < y.fileOffset) bs := by
  match idx with
  | [] => simp [get_zmw_bgzf_borders] at hb
  | r0 :: rs =>
      rw [borders_ok r0 rs hs] at hb
      cases Except.ok.inj hb
      obtain ⟨hrs, hall⟩ := sortedVoffsets_cons r0 rs hs
      refine List.chain'_cons'.mpr ⟨?_, bordersAux_chain_off rs 1 r0.groupId hrs⟩
      intro y hy
      exact bordersAux_off_gt rs 1 r0.groupId r0.voffset hall y (List.mem_of_mem_head? hy)

/-- Successful locator output has strictly increasing record indices. -/
theorem borders_chain_ri (idx : List IndexRecord) (bs : List Border)
    (hs : sortedVoffsets idx = true) (hb : get_zmw_bgzf_borders idx = .ok bs) :
    List.Chain' (fun x y => x.recordIndex < y.recordIndex) bs := by
  match idx with
  | [] => simp [get_zmw_bgzf_borders] at hb
  | r0 :: rs =>
      rw [borders_ok r0 rs hs] at hb
      cases Except.ok.inj hb
      refine List.chain'_cons'.mpr ⟨?_, bordersAux_chain_ri rs 1 (some r0.groupId)⟩
      intro y hy
      obtain ⟨s, _, _, _, hle⟩ :=
        mem_bordersAux rs 1 (some r0.groupId) y (List.mem_of_mem_head? hy)
      exact Nat.lt_of_succ_le hle

/-- Every border of a successful locator run takes its compressed offset
from some record of the index. -/
theorem borders_off_mem (idx : List IndexRecord) (bs : List Border)
    (hb : get_zmw_bgzf_borders idx = .ok bs) :
    ∀ b ∈ bs, ∃ r ∈ idx, b.fileOffset = coffset r := by
  intro b hbs
  unfold get_zmw_bgzf_borders at hb
  by_cases he : idx.isEmpty
  · rw [if_pos he] at hb; cases hb
  · rw [if_neg he] at hb
    by_cases hs : sortedVoffsets idx
    · rw [if_pos hs] at hb
      cases Except.ok.inj hb
      obtain ⟨r, hr, _, ho, _⟩ := mem_bordersAux idx 0 none b hbs
      exact ⟨r, hr, ho⟩
    · rw [if_neg hs] at hb; cases hb

/-- The deduplication pass emits a strictly increasing list, every element
of which exceeds the running lower bound. -/
theorem dedupIncrGo_props (l : List Nat) :
    ∀ last, List.Chain' (· < ·) (dedupIncrGo last l) ∧
      ∀ x ∈ dedupIncrGo last l, last < x := by
  induction l with
  | nil => intro last; simp [dedupIncrGo]
  | cons x xs ih =>
      intro last
      rw [dedupIncrGo]
      by_cases h : last < x
      · rw [if_pos h]
        obtain ⟨hc, hgt⟩ := ih x
        refine ⟨List.chain'_cons'.mpr ⟨?_, hc⟩, ?_⟩
        · intro y hy; exact hgt y (List.mem_of_mem_head? hy)
        · intro y hy
          rcases List.mem_cons.mp hy with h1 | h2
          · exact h1 ▸ h
          · exact Nat.lt_trans h (hgt y h2)
      · rw [if_neg h]; exact ih last

/-- The offset plan is strictly increasing. -/
theorem dedupIncr_chain (l : List Nat) : List.Chain' (· < ·) (dedupIncr l) := by
  match l with
  | [] => simp [dedupIncr]
  | x :: xs =>
      rw [dedupIncr]
      obtain ⟨hc, hgt⟩ := dedupIncrGo_props xs x
      exact List.chain'_cons'.mpr ⟨fun y hy => hgt y (List.mem_of_mem_head? hy), hc⟩

/-- Deduplication only drops candidates, it never invents offsets. -/
theorem dedupIncrGo_subset (l : List Nat) : ∀ last, dedupIncrGo last l ⊆ l := by
  induction l with
  | nil => intro last; simp [dedupIncrGo]
  | cons x xs ih =>
      intro last
      rw [dedupIncrGo]
      by_cases h : last < x
      · rw [if_pos h]
        intro y hy
        rcases List.mem_cons.mp hy with h1 | h2
        · exact h1 ▸ List.mem_cons_self x xs
        · exact List.mem_cons_of_mem x (ih x h2)
      · rw [if_neg h]
        intro y hy
        exact List.mem_cons_of_mem x (ih last hy)

/-- The offset plan draws from the candidate list. -/
theorem dedupIncr_subset (l : List Nat) : dedupIncr l ⊆ l := by
  match l with
  | [] => simp [dedupIncr]
  | x :: xs =>
      rw [dedupIncr]
      intro y hy
      rcases List.mem_cons.mp hy with h1 | h2
      · exact h1 ▸ List.mem_cons_self x xs
      · exact List.mem_cons_of_mem x (dedupIncrGo_subset xs x h2)

/-- Deduplication never lengthens the candidate list. -/
theorem dedupIncrGo_length (l : List Nat) : ∀ last, (dedupIncrGo last l).length ≤ l.length := by
  induction l with
  | nil => intro last; simp [dedupIncrGo]
  | cons x xs ih =>
      intro last
      rw [dedupIncrGo]
      by_cases h : last < x
      · rw [if_pos h]
        simpa using ih x
      · rw [if_neg h]
        exact Nat.le_trans (ih last) (Nat.le_succ _)

/-- The offset plan is at most as long as the candidate list. -/
theorem dedupIncr_length (l : List Nat) : (dedupIncr l).length ≤ l.length := by
  match l with
  | [] => simp [dedupIncr]
  | x :: xs =>
      rw [dedupIncr]
      simpa using dedupIncrGo_length xs x

/-- The closest-border selection returns one of the candidate borders. -/
theorem closestBorder_mem (n N k : Nat) :
    ∀ (bs : List Border) (b0 : Border), closestBorder n N k b0 bs ∈ b0 :: bs := by
  intro bs
  induction bs with
  | nil => intro b0; simp [closestBorder]
  | cons b bs ih =>
      intro b0
      have heq : closestBorder n N k b0 (b :: bs) =
          closestBorder n N k (if distTo n N k b < distTo n N k b0 then b else b0) bs := rfl
      rw [heq]
      by_cases h : distTo n N k b < distTo n N k b0
      · rw [if_pos h]
        exact List.mem_cons_of_mem b0 (ih b)
      · rw [if_neg h]
        rcases List.mem_cons.mp (ih b0) with h1 | h2
        · rw [h1]; exact List.mem_cons_self b0 (b :: bs)
        · exact List.mem_cons_of_mem b0 (List.mem_cons_of_mem b h2)

/-- The selection keeps the starting border when nothing beats it. -/
theorem closestBorder_stay (n N k : Nat) :
    ∀ (bs : List Border) (b0 : Border),
      (∀ b ∈ bs, ¬ distTo n N k b < distTo n N k b0) →
      closestBorder n N k b0 bs = b0 := by
  intro bs
  induction bs with
  | nil => intro b0 _; rfl
  | cons b bs ih =>
      intro b0 h
      have heq : closestBorder n N k b0 (b :: bs) =
          closestBorder n N k (if distTo n N k b < distTo n N k b0 then b else b0) bs := rfl
      rw [heq, if_neg (h b (List.mem_cons_self b bs))]
      exact ih b0 fun x hx => h x (List.mem_cons_of_mem b hx)

/-- The target of the first chunk (k = 0) always selects the starting
border, the one at record position 0. -/
theorem closestBorder_zero (n N : Nat) (bs : List Border) (b0 : Border)
    (h0 : b0.recordIndex = 0) : closestBorder n N 0 b0 bs = b0 := by
  apply closestBorder_stay
  intro b _
  have hz : distTo n N 0 b0 = 0 := by simp [distTo, h0]
  rw [hz]
  exact Nat.not_lt_zero _

/-- The partitioner accepts every chunk count of at least one. -/
theorem choose_offsets_ok (b0 : Border) (rest : List Border) (N n : Nat) (hn : 1 ≤ n) :
    choose_offsets (b0 :: rest) N n =
      .ok (dedupIncr ((List.range n).map fun k =>
        (closestBorder n N k b0 rest).fileOffset)) := by
  unfold choose_offsets
  rw [if_neg (by omega)]

/-- On a non-empty sorted index, `get_bam_offsets` succeeds and its value is
the deduplicated list of closest-border offsets. -/
theorem get_bam_offsets_ok (r0 : IndexRecord) (rs : List IndexRecord) (n : Nat)
    (hs : sortedVoffsets (r0 :: rs) = true) (hn : 1 ≤ n) :
    get_bam_offsets (r0 :: rs) n =
      .ok (dedupIncr ((List.range n).map fun k =>
        (closestBorder n (r0 :: rs).length k ⟨0, r0.groupId, coffset r0⟩
          (bordersAux 1 (some r0.groupId) rs)).fileOffset)) := by
  simp only [get_bam_offsets, borders_ok r0 rs hs]
  exact choose_offsets_ok _ _ _ _ hn

/-- Bundle of structural facts about a successful offset plan: strictly
increasing, non-empty, at most the requested length, headed by the first
record's compressed offset, and drawn from the border offsets. -/
theorem offsets_props (r0 : IndexRecord) (rs : List IndexRecord) (n : Nat)
    (offs : List Nat) (bs : List Border)
    (hs : sortedVoffsets (r0 :: rs) = true) (hn : 1 ≤ n)
    (hb : get_zmw_bgzf_borders (r0 :: rs) = .ok bs)
    (hok : get_bam_offsets (r0 :: rs) n = .ok offs) :
    List.Chain' (· < ·) offs ∧
    offs.head? = some (coffset r0) ∧
    1 ≤ offs.length ∧ offs.length ≤ n ∧
    (∀ o ∈ offs, ∃ b ∈ bs, o = b.fileOffset) := by
  rw [borders_ok r0 rs hs] at hb
  have hbs := (Except.ok.inj hb).symm
  subst hbs
  rw [get_bam_offsets_ok r0 rs n hs hn] at hok
  have hoffs := Except.ok.inj hok
  subst hoffs
  obtain ⟨m, rfl⟩ : ∃ m, n = m + 1 := ⟨n - 1, by omega⟩
  have hdecomp : (List.range (m + 1)).map (fun k =>
      (closestBorder (m + 1) (r0 :: rs).length k ⟨0, r0.groupId, coffset r0⟩
        (bordersAux 1 (some r0.groupId) rs)).fileOffset) =
      coffset r0 :: ((List.map Nat.succ (List.range m)).map fun k =>
        (closestBorder (m + 1) (r0 :: rs).length k ⟨0, r0.groupId, coffset r0⟩
          (bordersAux 1 (some r0.groupId) rs)).fileOffset) := by
    rw [List.range_succ_eq_map, List.map_cons,
      closestBorder_zero _ _ _ ⟨0, r0.groupId, coffset r0⟩ rfl]
  refine ⟨dedupIncr_chain _, ?_, ?_, ?_, ?_⟩
  · rw [hdecomp]; rfl
  · rw [hdecomp, dedupIncr]
    simp
  · refine Nat.le_trans (dedupIncr_length _) ?_
    simp
  · intro o ho
    have hpick := dedupIncr_subset _ ho
    obtain ⟨k, _, hko⟩ := List.mem_map.mp hpick
    exact ⟨closestBorder (m + 1) (r0 :: rs).length k ⟨0, r0.groupId, coffset r0⟩
      (bordersAux 1 (some r0.groupId) rs), closestBorder_mem _ _ _ _ _, hko.symm⟩

/-- Compressed block offsets are monotone along a sorted index. -/
theorem coffset_mono (idx : List IndexRecord) (hs : sortedVoffsets idx = true) :
    List.Pairwise (fun x y => coffset x ≤ coffset y) idx := by
  induction idx with
  | nil => exact List.Pairwise.nil
  | cons r rs ih =>
      obtain ⟨hrs, hall⟩ := sortedVoffsets_cons r rs hs
      refine List.pairwise_cons.mpr ⟨?_, ih hrs⟩
      intro s hsmem
      exact Nat.div_le_div_right (Nat.le_of_lt (hall s hsmem))

/-- The orchestrator produces exactly one chunk per plan offset. -/
theorem chunksOf_length (idx : List IndexRecord) :
    ∀ offs, (chunksOf idx offs).length = offs.length
  | [] => rfl
  | [_] => rfl
  | o1 :: o2 :: rest => by
      simp only [chunksOf, List.length_cons, chunksOf_length idx (o2 :: rest)]

/-- Splitting a coffset-monotone record list at an interior cut b loses no
record: the band [a, b) followed by the tail [b, ∞) is the tail [a, ∞). -/
theorem filter_append_interval (a b : Nat) (hab : a ≤ b) :
    ∀ l : List IndexRecord, List.Pairwise (fun x y => coffset x ≤ coffset y) l →
      (l.filter fun r => decide (a ≤ coffset r ∧ coffset r < b)) ++
        (l.filter fun r => decide (b ≤ coffset r)) =
      l.filter fun r => decide (a ≤ coffset r) := by
  intro l
  induction l with
  | nil => intro _; rfl
  | cons x xs ih =>
      intro hp
      obtain ⟨hx, hxs⟩ := List.pairwise_cons.mp hp
      by_cases h1 : a ≤ coffset x
      · by_cases h2 : coffset x < b
        · rw [List.filter_cons_of_pos (by simp [h1, h2]),
            List.filter_cons_of_neg (by simp; omega),
            List.filter_cons_of_pos (by simp [h1]), List.cons_append, ih hxs]
        · have hbx : b ≤ coffset x := Nat.le_of_not_lt h2
          rw [List.filter_cons_of_neg (by simp; omega),
            List.filter_cons_of_pos (by simpa using hbx),
            List.filter_cons_of_pos (by simpa using h1)]
          have hnil : xs.filter (fun r => decide (a ≤ coffset r ∧ coffset r < b)) = [] := by
            refine List.filter_eq_nil_iff.mpr ?_
            intro y hy
            have : b ≤ coffset y := Nat.le_trans hbx (hx y hy)
            simp
            omega
          have hcongr : xs.filter (fun r => decide (b ≤ coffset r)) =
              xs.filter fun r => decide (a ≤ coffset r) := by
            refine List.filter_congr ?_
            intro y hy
            have hby : b ≤ coffset y := Nat.le_trans hbx (hx y hy)
            simp
            omega
          rw [hnil, List.nil_append, hcongr]
      · have hxa : coffset x < a := Nat.lt_of_not_le h1
        rw [List.filter_cons_of_neg (by simp; omega),
          List.filter_cons_of_neg (by simp; omega),
          List.filter_cons_of_neg (by simpa using h1)]
        exact ih hxs

/-- Concatenating the chunks of a plan headed by offset o yields exactly the
records whose block starts at or after o. -/
theorem chunksOf_flatten (idx : List IndexRecord)
    (hmono : List.Pairwise (fun x y => coffset x ≤ coffset y) idx) :
    ∀ (offs : List Nat) (o : Nat), List.Chain' (· < ·) (o :: offs) →
      (chunksOf idx (o :: offs)).flatten = idx.filter fun r => decide (o ≤ coffset r) := by
  intro offs
  induction offs with
  | nil => intro o _; simp [chunksOf]
  | cons o2 rest ih =>
      intro o hc
      have hco : o < o2 := (List.chain'_cons.mp hc).1
      have htail := (List.chain'_cons.mp hc).2
      simp only [chunksOf, List.flatten_cons]
      rw [ih o2 htail]
      exact filter_append_interval o o2 (Nat.le_of_lt hco) idx hmono

/-- When every plan offset is the block start of some record, no chunk is
empty. -/
theorem chunksOf_ne_nil (idx : List IndexRecord) :
    ∀ offs, List.Chain' (· < ·) offs →
      (∀ o ∈ offs, ∃ r ∈ idx, coffset r = o) →
      ∀ c ∈ chunksOf idx offs, c ≠ [] := by
  intro offs
  induction offs with
  | nil => intro _ _ c hc; simp [chunksOf] at hc
  | cons o rest ih =>
      intro hc hmem c hcm
      obtain ⟨r, hr, hro⟩ := hmem o (List.mem_cons_self o rest)
      cases rest with
      | nil =>
          simp only [chunksOf, List.mem_singleton] at hcm
          subst hcm
          refine List.ne_nil_of_mem (a := r) ?_
          refine List.mem_filter.mpr ⟨hr, ?_⟩
          simp [hro]
      | cons o2 rest' =>
          have hco : o < o2 := (List.chain'_cons.mp hc).1
          have htail := (List.chain'_cons.mp hc).2
          simp only [chunksOf] at hcm
          rcases List.mem_cons.mp hcm with h1 | h2
          · subst h1
            refine List.ne_nil_of_mem (a := r) ?_
            refine List.mem_filter.mpr ⟨hr, ?_⟩
            simp [hro]
            omega
          · exact ih htail
              (fun o' ho' => hmem o' (List.mem_cons_of_mem o ho')) c h2

/-- Under the contiguity invariant, the scan emits pairwise distinct group
identifiers, all of them fresh with respect to the closed-group set and the
current group. -/
theorem bordersAux_groups_nodup (l : List IndexRecord) :
    ∀ g seen i, groupsContiguousB (some g) seen l = true →
      ((bordersAux i (some g) l).map fun b => b.groupId).Nodup ∧
      ∀ x ∈ (bordersAux i (some g) l).map fun b => b.groupId, x ∉ seen ∧ x ≠ g := by
  induction l with
  | nil => intro g seen i _; simp [bordersAux]
  | cons r rs ih =>
      intro g seen i hcont
      by_cases hg : r.groupId = g
      · have hcont' : groupsContiguousB (some g) seen rs = true := by
          rw [groupsContiguousB, if_pos hg] at hcont; exact hcont
        have hbord : bordersAux i (some g) (r :: rs) =
            bordersAux (i + 1) (some r.groupId) rs := by
          rw [bordersAux, if_neg fun h => h.1 hg]
        rw [hbord, hg]
        exact ih g seen (i + 1) hcont'
      · have hne : r.groupId ∉ seen := by
          intro hmem
          rw [groupsContiguousB, if_neg hg, if_pos hmem] at hcont
          exact Bool.noConfusion hcont
        have hcont' : groupsContiguousB (some r.groupId) (g :: seen) rs = true := by
          rw [groupsContiguousB, if_neg hg, if_neg hne] at hcont; exact hcont
        obtain ⟨hnd, hall⟩ := ih r.groupId (g :: seen) (i + 1) hcont'
        by_cases hu : uoffset r = 0
        · have hbord : bordersAux i (some g) (r :: rs) =
              ⟨i, r.groupId, coffset r⟩ :: bordersAux (i + 1) (some r.groupId) rs := by
            rw [bordersAux, if_pos ⟨hg, hu⟩]
          rw [hbord, List.map_cons]
          refine ⟨List.nodup_cons.mpr ⟨fun hmem => (hall _ hmem).2 rfl, hnd⟩, ?_⟩
          intro x hx
          rcases List.mem_cons.mp hx with h1 | h2
          · rw [h1]; exact ⟨hne, hg⟩
          · have hx2 := hall x h2
            exact ⟨fun hs2 => hx2.1 (List.mem_cons_of_mem g hs2),
              fun hxg => hx2.1 (hxg ▸ List.mem_cons_self g seen)⟩
        · have hbord : bordersAux i (some g) (r :: rs) =
              bordersAux (i + 1) (some r.groupId) rs := by
            rw [bordersAux, if_neg fun h => hu h.2]
          rw [hbord]
          refine ⟨hnd, ?_⟩
          intro x hx
          have hx2 := hall x hx
          exact ⟨fun hs2 => hx2.1 (List.mem_cons_of_mem g hs2),
            fun hxg => hx2.1 (hxg ▸ List.mem_cons_self g seen)⟩

/-- On a contiguous index a successful locator run emits at most one border
per distinct group. -/
theorem borders_groups_nodup (idx : List IndexRecord) (bs : List Border)
    (hcont : groupsContiguousB none [] idx = true)
    (hb : get_zmw_bgzf_borders idx = .ok bs) :
    (bs.map fun b => b.groupId).Nodup := by
  match idx with
  | [] => simp [get_zmw_bgzf_borders] at hb
  | r0 :: rs =>
      by_cases hs : sortedVoffsets (r0 :: rs) = true
      · rw [borders_ok r0 rs hs] at hb
        have hbs := (Except.ok.inj hb).symm
        subst hbs
        have hcont' : groupsContiguousB (some r0.groupId) [] rs = true := by
          rw [groupsContiguousB] at hcont; exact hcont
        obtain ⟨hnd, hall⟩ := bordersAux_groups_nodup rs r0.groupId [] 1 hcont'
        rw [List.map_cons]
        exact List.nodup_cons.mpr ⟨fun hmem => (hall _ hmem).2 rfl, hnd⟩
      · simp [get_zmw_bgzf_borders, hs] at hb

/-- Deduplicating a constant candidate list keeps only its first element. -/
theorem dedupIncrGo_replicate (m x : Nat) : dedupIncrGo x (List.replicate m x) = [] := by
  induction m with
  | zero => rfl
  | succ k ih =>
      rw [List.replicate_succ, dedupIncrGo, if_neg (Nat.lt_irrefl x)]
      exact ih

/-- A successful offset plan determines the orchestrator's output. -/
theorem split_bam_eq (idx : List IndexRecord) (n : Nat) (offs : List Nat)
    (h : get_bam_offsets idx n = .ok offs) :
    split_bam idx n = .ok ((chunksOf idx offs).length, (chunksOf idx offs).enum) := by
  unfold split_bam
  rw [h]

/-- C1: for every source file with a valid (non-empty, offset-sorted) index
and every requested chunk count n ≥ 1, concatenating the record streams of
the chunk files produced by split_bam, in chunk-index order, yields exactly
the record stream of the source: no record duplicated, none dropped,
relative order preserved. -/
theorem split_bam_roundtrip (idx : List IndexRecord) (n m : Nat)
    (files : List (Nat × List IndexRecord))
    (hne : idx ≠ []) (hs : sortedVoffsets idx = true) (hn : 1 ≤ n)
    (hok : split_bam idx n = .ok (m, files)) :
    (files.map Prod.snd).flatten = idx := by
  match idx, hne with
  | r0 :: rs, _ =>
      cases hh : get_bam_offsets (r0 :: rs) n with
      | error e =>
          rw [get_bam_offsets_ok r0 rs n hs hn] at hh
          exact Except.noConfusion hh
      | ok offs =>
          have hsp := split_bam_eq (r0 :: rs) n offs hh
          rw [hsp] at hok
          have hpair := Except.ok.inj hok
          have hfiles : files = (chunksOf (r0 :: rs) offs).enum :=
            (congrArg Prod.snd hpair).symm
          obtain ⟨hchain, hhead, _, _, _⟩ :=
            offsets_props r0 rs n offs _ hs hn (borders_ok r0 rs hs) hh
          cases offs with
          | nil => simp at hhead
          | cons o0 rest =>
              have ho0 : o0 = coffset r0 := by simpa using hhead
              subst ho0
              rw [hfiles, List.enum_map_snd]
              rw [chunksOf_flatten (r0 :: rs) (coffset_mono _ hs) rest (coffset r0) hchain]
              refine List.filter_eq_self.mpr ?_
              intro r hr
              rcases List.mem_cons.mp hr with h1 | h2
              · rw [h1]; simp
              · have := (List.pairwise_cons.mp (coffset_mono _ hs)).1 r h2
                simpa using this

/-- Witness for split_bam_roundtrip: fixture A split into three chunks
reassembles to fixture A. -/
theorem split_bam_roundtrip_witness :
    ((chunksOf fixtureA [396, 26575, 77209]).enum.map Prod.snd).flatten = fixtureA :=
  split_bam_roundtrip fixtureA 3 3 (chunksOf fixtureA [396, 26575, 77209]).enum
    (by decide) (by decide) (by decide) (by decide)

/-- C3 (amended): for every valid index and requested count n ≥ 1, the
offset plan is strictly increasing, has between 1 and n entries, starts at
the first record's compressed offset (the position just after the header),
and every entry is the compressed offset of a located border. -/
theorem get_bam_offsets_plan_props (r0 : IndexRecord) (rs : List IndexRecord) (n : Nat)
    (offs : List Nat) (bs : List Border)
    (hs : sortedVoffsets (r0 :: rs) = true) (hn : 1 ≤ n)
    (hb : get_zmw_bgzf_borders (r0 :: rs) = .ok bs)
    (hok : get_bam_offsets (r0 :: rs) n = .ok offs) :
    List.Chain' (· < ·) offs ∧ 1 ≤ offs.length ∧ offs.length ≤ n ∧
    offs.head? = some (coffset r0) ∧ ∀ o ∈ offs, ∃ b ∈ bs, o = b.fileOffset := by
  obtain ⟨h1, h2, h3, h4, h5⟩ := offsets_props r0 rs n offs bs hs hn hb hok
  exact ⟨h1, h3, h4, h2, h5⟩

/-- Witness for get_bam_offsets_plan_props at fixture A with two chunks. -/
theorem get_bam_offsets_plan_props_witness :
    List.Chain' (· < ·) [396, 77209] ∧ 1 ≤ ([396, 77209] : List Nat).length ∧
    ([396, 77209] : List Nat).length ≤ 2 ∧
    ([396, 77209] : List Nat).head? = some (coffset ⟨1650, 396 * 65536⟩) ∧
    ∀ o ∈ ([396, 77209] : List Nat),
      ∃ b ∈ [(⟨0, 1650, 396⟩ : Border), ⟨16, 7247, 26575⟩, ⟨48, 30983, 77209⟩],
        o = b.fileOffset :=
  get_bam_offsets_plan_props ⟨1650, 396 * 65536⟩ fixtureA.tail 2 [396, 77209]
    [⟨0, 1650, 396⟩, ⟨16, 7247, 26575⟩, ⟨48, 30983, 77209⟩]
    (by decide) (by decide) (by decide) (by decide)

/-- C3 counterexample: on the single-border fixture B the plan for one chunk
is [447], so the first plan entry is the first border's compressed offset,
not 0 (and hence also not followed by an end-of-data entry). -/
theorem get_bam_offsets_first_offset_counterexample :
    get_bam_offsets fixtureB 1 = .ok [447] ∧ (447 : Nat) ≠ 0 := by decide

/-- C6: on single-border fixture B, get_bam_offsets returns the one-entry
plan [447] for every requested chunk count ≥ 1: no interior split is
possible and the whole file becomes one chunk. -/
theorem get_bam_offsets_single_border (n : Nat) (hn : 1 ≤ n) :
    get_bam_offsets fixtureB n = .ok [447] := by
  obtain ⟨m, rfl⟩ : ∃ m, n = m + 1 := ⟨n - 1, by omega⟩
  have h := get_bam_offsets_ok ⟨5177614, 447 * 65536⟩
    [⟨5177614, 447 * 65536 + 1⟩, ⟨5177614, 447 * 65536 + 2⟩] (m + 1)
    (by decide) (by omega)
  have htail : bordersAux 1 (some ((⟨5177614, 447 * 65536⟩ : IndexRecord).groupId))
      [⟨5177614, 447 * 65536 + 1⟩, ⟨5177614, 447 * 65536 + 2⟩] = [] := by decide
  rw [htail] at h
  have hmap : (List.range (m + 1)).map (fun k => (closestBorder (m + 1)
      ([(⟨5177614, 447 * 65536⟩ : IndexRecord), ⟨5177614, 447 * 65536 + 1⟩,
        ⟨5177614, 447 * 65536 + 2⟩]).length k
      ⟨0, (⟨5177614, 447 * 65536⟩ : IndexRecord).groupId,
        coffset ⟨5177614, 447 * 65536⟩⟩ []).fileOffset) =
      List.replicate (m + 1) 447 := by
    refine List.eq_replicate_iff.mpr ⟨by simp, ?_⟩
    intro b hb
    obtain ⟨k, _, hk⟩ := List.mem_map.mp hb
    rw [← hk]
    rfl
  rw [hmap, List.replicate_succ, dedupIncr, dedupIncrGo_replicate] at h
  exact h

/-- Witness for get_bam_offsets_single_border at chunk count 5. -/
theorem get_bam_offsets_single_border_witness :
    1 ≤ 5 ∧ get_bam_offsets fixtureB 5 = .ok [447] :=
  ⟨by decide, get_bam_offsets_single_border 5 (by decide)⟩

/-- C7: the border locator fails with MalformedIndexError, returning no
border list, exactly when the index is empty or its virtual offsets are not
monotonically increasing. -/
theorem get_zmw_bgzf_borders_error_iff (idx : List IndexRecord) :
    get_zmw_bgzf_borders idx = .error .malformedIndex ↔
      (idx = [] ∨ sortedVoffsets idx = false) := by
  unfold get_zmw_bgzf_borders
  cases he : idx.isEmpty with
  | true =>
      have : idx = [] := List.isEmpty_iff.mp he
      simp [this]
  | false =>
      have hne : idx ≠ [] := by
        intro h
        rw [h] at he
        simp at he
      cases hs : sortedVoffsets idx with
      | true => simp [hne, hs]
      | false => simp [hne, hs]

/-- C8: the offset partitioner fails with InvalidChunkCountError, producing
no offset plan, exactly when the requested chunk count is below one. -/
theorem choose_offsets_error_iff (bs : List Border) (N n : Nat) :
    choose_offsets bs N n = .error .invalidChunkCount ↔ n < 1 := by
  unfold choose_offsets
  by_cases hn : n < 1
  · simp [hn]
  · rw [if_neg hn]
    cases bs with
    | nil => simp [hn]
    | cons b rest => simp [hn]

/-- C9: every plan offset returned by get_bam_offsets is the file-offset
component of some border returned by get_zmw_bgzf_borders, and the first
plan entry is the offset of the first border, which sits at record
position 0. -/
theorem get_bam_offsets_from_borders (idx : List IndexRecord) (n : Nat)
    (offs : List Nat) (bs : List Border)
    (hne : idx ≠ []) (hs : sortedVoffsets idx = true) (hn : 1 ≤ n)
    (hb : get_zmw_bgzf_borders idx = .ok bs)
    (hok : get_bam_offsets idx n = .ok offs) :
    (∀ o ∈ offs, ∃ b ∈ bs, o = b.fileOffset) ∧
    ∃ b0, bs.head? = some b0 ∧ b0.recordIndex = 0 ∧ offs.head? = some b0.fileOffset := by
  match idx, hne with
  | r0 :: rs, _ =>
      obtain ⟨_, hhead, _, _, hmem⟩ := offsets_props r0 rs n offs bs hs hn hb hok
      refine ⟨hmem, ⟨0, r0.groupId, coffset r0⟩, ?_, rfl, ?_⟩
      · rw [borders_ok r0 rs hs] at hb
        have hbs := (Except.ok.inj hb).symm
        subst hbs
        rfl
      · exact hhead

/-- Witness for get_bam_offsets_from_borders at fixture A with two chunks. -/
theorem get_bam_offsets_from_borders_witness :
    (∀ o ∈ ([396, 77209] : List Nat),
      ∃ b ∈ [(⟨0, 1650, 396⟩ : Border), ⟨16, 7247, 26575⟩, ⟨48, 30983, 77209⟩],
        o = b.fileOffset) ∧
    ∃ b0, ([(⟨0, 1650, 396⟩ : Border), ⟨16, 7247, 26575⟩,
        ⟨48, 30983, 77209⟩]).head? = some b0 ∧
      b0.recordIndex = 0 ∧ ([396, 77209] : List Nat).head? = some b0.fileOffset :=
  get_bam_offsets_from_borders fixtureA 2 [396, 77209]
    [⟨0, 1650, 396⟩, ⟨16, 7247, 26575⟩, ⟨48, 30983, 77209⟩]
    (by decide) (by decide) (by decide) (by decide) (by decide)

/-- C10: the chunk count returned by split_bam equals the length of the
offset plan of get_bam_offsets, and the chunk files are numbered with
contiguous 0-based indices. -/
theorem split_bam_counts_files (idx : List IndexRecord) (n : Nat) (offs : List Nat)
    (hok : get_bam_offsets idx n = .ok offs) :
    split_bam idx n = .ok (offs.length, (chunksOf idx offs).enum) ∧
    (chunksOf idx offs).enum.map Prod.fst = List.range offs.length := by
  constructor
  · rw [split_bam_eq idx n offs hok, chunksOf_length]
  · rw [List.enum_map_fst, chunksOf_length]

/-- Witness for split_bam_counts_files at fixture A with two chunks. -/
theorem split_bam_counts_files_witness :
    split_bam fixtureA 2 =
      .ok (([396, 77209] : List Nat).length, (chunksOf fixtureA [396, 77209]).enum) ∧
    (chunksOf fixtureA [396, 77209]).enum.map Prod.fst =
      List.range ([396, 77209] : List Nat).length :=
  split_bam_counts_files fixtureA 2 [396, 77209] (by decide)

/-- C2 counterexample: fixture C has exactly 3 usable borders, yet
requesting 3 chunks produces only 2, because the record-count targets both
fall beyond the last border. -/
theorem split_bam_three_borders_counterexample :
    (get_zmw_bgzf_borders fixtureC).toOption.map List.length = some 3 ∧
    (split_bam fixtureC 3).toOption.map Prod.fst = some 2 := by decide

/-- C2 (amended): on fixture A, whose three borders are spread so that each
fractional target selects a distinct border, requested counts 1, 2, 3, 4
give actual counts 1, 2, 3, 3; and in general the actual count is silently
clamped — at least 1, at most the requested count, at most the number of
located borders — never an error for a valid index, and with no empty chunk
produced. -/
theorem split_bam_count_saturates :
    ((split_bam fixtureA 1).toOption.map Prod.fst = some 1 ∧
     (split_bam fixtureA 2).toOption.map Prod.fst = some 2 ∧
     (split_bam fixtureA 3).toOption.map Prod.fst = some 3 ∧
     (split_bam fixtureA 4).toOption.map Prod.fst = some 3) ∧
    ∀ (idx : List IndexRecord) (n m : Nat) (files : List (Nat × List IndexRecord))
      (bs : List Border), idx ≠ [] → sortedVoffsets idx = true → 1 ≤ n →
      get_zmw_bgzf_borders idx = .ok bs → split_bam idx n = .ok (m, files) →
      1 ≤ m ∧ m ≤ n ∧ m ≤ bs.length ∧ ∀ c ∈ files.map Prod.snd, c ≠ [] := by
  refine ⟨⟨by decide, by decide, by decide, by decide⟩, ?_⟩
  intro idx n m files bs hne hs hn hb hok
  match idx, hne with
  | r0 :: rs, _ =>
      cases hh : get_bam_offsets (r0 :: rs) n with
      | error e =>
          rw [get_bam_offsets_ok r0 rs n hs hn] at hh
          exact Except.noConfusion hh
      | ok offs =>
          have hsp := split_bam_eq (r0 :: rs) n offs hh
          rw [hsp] at hok
          have hpair := Except.ok.inj hok
          have hm : m = offs.length := by
            have hfst := congrArg Prod.fst hpair
            rw [chunksOf_length] at hfst
            exact hfst.symm
          have hfiles : files = (chunksOf (r0 :: rs) offs).enum :=
            (congrArg Prod.snd hpair).symm
          obtain ⟨hchain, hhead, hlen1, hlenn, hmem⟩ :=
            offsets_props r0 rs n offs bs hs hn hb hh
          subst hm
          refine ⟨hlen1, hlenn, ?_, ?_⟩
          · have hnodup : offs.Nodup := by
              have hp : List.Pairwise (· < ·) offs := List.chain'_iff_pairwise.mp hchain
              exact hp.imp Nat.ne_of_lt
            have hsubset : offs ⊆ bs.map fun b => b.fileOffset := by
              intro o ho
              obtain ⟨b, hbmem, hbo⟩ := hmem o ho
              rw [hbo]
              exact List.mem_map_of_mem _ hbmem
            have hle := (hnodup.subperm hsubset).length_le
            simpa using hle
          · intro c hc
            rw [hfiles, List.enum_map_snd] at hc
            refine chunksOf_ne_nil (r0 :: rs) offs hchain ?_ c hc
            intro o ho
            obtain ⟨b, hbmem, hbo⟩ := hmem o ho
            obtain ⟨r, hr, hro⟩ := borders_off_mem (r0 :: rs) bs hb b hbmem
            exact ⟨r, hr, by rw [hbo, hro]⟩

/-- Witness for the general clamping part of split_bam_count_saturates, at
fixture A with two requested chunks. -/
theorem split_bam_count_saturates_witness :
    1 ≤ 2 ∧ 2 ≤ 2 ∧
    2 ≤ ([(⟨0, 1650, 396⟩ : Border), ⟨16, 7247, 26575⟩, ⟨48, 30983, 77209⟩]).length ∧
    ∀ c ∈ ((chunksOf fixtureA [396, 77209]).enum).map Prod.snd, c ≠ [] :=
  split_bam_count_saturates.2 fixtureA 2 2 (chunksOf fixtureA [396, 77209]).enum
    [⟨0, 1650, 396⟩, ⟨16, 7247, 26575⟩, ⟨48, 30983, 77209⟩]
    (by decide) (by decide) (by decide) (by decide) (by decide)

/-- C4 counterexample: fixtureD is a valid (non-empty, sorted, contiguous)
index with two distinct groups, yet the locator emits exactly one border:
the record opening group 1 has a nonzero uncompressed component and is
skipped (so the claimed one-border-per-distinct-group fails), while the
emitted border itself comes from record 0, whose uncompressed component is
nonzero (so the claimed never-emit-nonzero-uoffset fails as well). -/
theorem get_zmw_bgzf_borders_emission_counterexample :
    sortedVoffsets fixtureD = true ∧ groupsContiguousB none [] fixtureD = true ∧
    (fixtureD.map fun r => r.groupId) = [0, 1] ∧
    get_zmw_bgzf_borders fixtureD = .ok [⟨0, 0, 0⟩] ∧
    uoffset ⟨0, 1⟩ ≠ 0 := by decide

/-- C4 (amended): on a valid (non-empty, sorted, group-contiguous) index
the located borders are strictly increasing both in compressed byte offset
and in record index, carry pairwise distinct group identifiers (at most one
border per distinct group, taken at the group's first record), and every
border after record position 0 comes from a record whose uncompressed
offset component is zero. -/
theorem get_zmw_bgzf_borders_props (idx : List IndexRecord) (bs : List Border)
    (hs : sortedVoffsets idx = true)
    (hcont : groupsContiguousB none [] idx = true)
    (hb : get_zmw_bgzf_borders idx = .ok bs) :
    List.Chain' (fun x y => x.fileOffset < y.fileOffset) bs ∧
    List.Chain' (fun x y => x.recordIndex < y.recordIndex) bs ∧
    ((bs.map fun b => b.groupId).Nodup) ∧
    ∀ b ∈ bs, 0 < b.recordIndex →
      ∃ r ∈ idx, b.groupId = r.groupId ∧ b.fileOffset = coffset r ∧ uoffset r = 0 := by
  refine ⟨borders_chain_off idx bs hs hb, borders_chain_ri idx bs hs hb,
    borders_groups_nodup idx bs hcont hb, ?_⟩
  cases idx with
  | nil => simp [get_zmw_bgzf_borders] at hb
  | cons r0 rs =>
      rw [borders_ok r0 rs hs] at hb
      have hbs := (Except.ok.inj hb).symm
      subst hbs
      intro b hbmem hbpos
      rcases List.mem_cons.mp hbmem with h1 | h2
      · rw [h1] at hbpos
        exact absurd hbpos (by simp)
      · obtain ⟨r, hr, hg, ho, hu⟩ := mem_bordersAux_some rs 1 r0.groupId b h2
        exact ⟨r, List.mem_cons_of_mem r0 hr, hg, ho, hu⟩

/-- Witness for get_zmw_bgzf_borders_props at fixture A. -/
theorem get_zmw_bgzf_borders_props_witness :
    List.Chain' (fun x y : Border => x.fileOffset < y.fileOffset)
      [⟨0, 1650, 396⟩, ⟨16, 7247, 26575⟩, ⟨48, 30983, 77209⟩] ∧
    List.Chain' (fun x y : Border => x.recordIndex < y.recordIndex)
      [⟨0, 1650, 396⟩, ⟨16, 7247, 26575⟩, ⟨48, 30983, 77209⟩] ∧
    ((([(⟨0, 1650, 396⟩ : Border), ⟨16, 7247, 26575⟩,
        ⟨48, 30983, 77209⟩]).map fun b => b.groupId).Nodup) ∧
    ∀ b ∈ [(⟨0, 1650, 396⟩ : Border), ⟨16, 7247, 26575⟩, ⟨48, 30983, 77209⟩],
      0 < b.recordIndex →
      ∃ r ∈ fixtureA, b.groupId = r.groupId ∧ b.fileOffset = coffset r ∧ uoffset r = 0 :=
  get_zmw_bgzf_borders_props fixtureA
    [⟨0, 1650, 396⟩, ⟨16, 7247, 26575⟩, ⟨48, 30983, 77209⟩]
    (by decide) (by decide) (by decide)

/-- C5 counterexample: the compressed byte offsets of fixture A's borders
are 396, 26575 and 77209 (matching the byte offsets the partitioner hands
to the extractor), not 1650, 7247 and 30983, which are the borders' group
identifiers (ZMW hole numbers). -/
theorem scenarioA_offsets_counterexample :
    (get_zmw_bgzf_borders fixtureA).toOption.map (List.map fun b => b.fileOffset) =
      some [396, 26575, 77209] ∧
    get_bam_offsets fixtureA 4 = .ok [396, 26575, 77209] ∧
    ([396, 26575, 77209] : List Nat) ≠ [1650, 7247, 30983] := by decide

/-- C5 (amended): fixture A's index yields exactly three legal borders, at
record positions 0, 16, 48 with group ids 1650, 7247, 30983 and compressed
offsets 396, 26575, 77209; requesting 4 chunks from this three-border file
yields exactly 3 chunk files whose concatenated record streams equal the
source's full record list. -/
theorem scenarioA_borders_and_split :
    get_zmw_bgzf_borders fixtureA =
      .ok [⟨0, 1650, 396⟩, ⟨16, 7247, 26575⟩, ⟨48, 30983, 77209⟩] ∧
    (split_bam fixtureA 4).toOption.map Prod.fst = some 3 ∧
    (split_bam fixtureA 4).toOption.map
      (fun p => (p.2.map Prod.snd).flatten) = some fixtureA := by decide

end CloudUtils
